import Mathlib

/-!
Verification of the amptec-scraper crawler (src/amptec_scraper/crawl.py and
src/amptec_scraper/main.py) against its natural-language specification.

Python strings are embedded as `List Char` (`Str`).  The external
collaborators that the spec declares out of scope (the ScrapingBee HTTP
transport and the BeautifulSoup DOM parser) are embedded as oracle
parameters: a fetch oracle maps a URL to the aggregate outcome of one
page-fetch (final status plus the anchor hrefs found in the body), so a
page's "html" is represented by the list of its anchor `href` values.
-/

namespace AmptecScraper

/-- Python `str`, embedded as a list of characters. -/
abbrev Str := List Char

/-- Python `s.lower()` (ASCII case folding, which is what the crawler's
URLs and keywords use). -/
def lowerStr (s : Str) : Str := s.map Char.toLower

/-- Bool test that `p` is a prefix of `h` (helper for substring search). -/
def isPrefOf : Str → Str → Bool
  | [], _ => true
  | _ :: _, [] => false
  | a :: as, b :: bs => a == b && isPrefOf as bs

/-- Python's `pat in hay` substring test on strings. -/
def substrB (pat : Str) : Str → Bool
  | [] => isPrefOf pat []
  | b :: bs => isPrefOf pat (b :: bs) || substrB pat bs

/-- Python `set.add`: insert only if absent (list-as-set, insertion order). -/
def setInsert (l : List Str) (x : Str) : List Str :=
  if x ∈ l then l else l ++ [x]

/-! ### `urllib.parse.urlparse`, restricted to the fields the crawler reads

The crawler only reads `urlparse(url).netloc` and `urlparse(url).path`.
This models those two fields for the URL shapes the crawler handles:
absolute `scheme://netloc/path?query#fragment` URLs and scheme-less
relative references (whose netloc is empty). -/

/-- The part of `s` after the first `"://"`, when present. -/
def afterSchemeSep : Str → Option Str
  | [] => none
  | c :: rest =>
      if c = ':' ∧ isPrefOf ['/', '/'] rest then some (rest.drop 2)
      else afterSchemeSep rest

/-- True iff `c` ends the netloc component. -/
def endsNetloc (c : Char) : Bool := c == '/' || c == '?' || c == '#'

/-- True iff `c` ends the path component. -/
def endsPath (c : Char) : Bool := c == '?' || c == '#'

/-- `urlparse(url).netloc`. -/
def netlocOf (url : Str) : Str :=
  match afterSchemeSep url with
  | none => []
  | some r => r.takeWhile (fun c => !endsNetloc c)

/-- `urlparse(url).path`. -/
def pathOf (url : Str) : Str :=
  match afterSchemeSep url with
  | none => url.takeWhile (fun c => !endsPath c)
  | some r => (r.dropWhile (fun c => !endsNetloc c)).takeWhile (fun c => !endsPath c)

/-! ### Link classification (crawl.py lines 213-216 and 238-240) -/

/-- crawl.py `_is_product_url(url, keywords)`: lower-case the whole URL
and test each keyword with Python `in`.  This is the classifier that
`crawl_with_scrapingbee` and `_crawl_page` use. -/
def is_product_url (url : Str) (keywords : List Str) : Bool :=
  let url_lower := lowerStr url
  keywords.any (fun keyword => substrB keyword url_lower)

/-- crawl.py `_looks_like_product_url(url, keywords)`: lower-case only the
URL's path and test each keyword with Python `in`.  Only the final
queue-based `crawl` variant uses it. -/
def looks_like_product_url (url : Str) (keywords : List Str) : Bool :=
  let path := lowerStr (pathOf url)
  keywords.any (fun k => substrB k path)

/-- The inline allowed-domain filter of crawl.py lines 80-84 and 196-199:
`any(domain in parsed.netloc for domain in allowed_domains)`. -/
def domainAllowed (allowed : List Str) (link : Str) : Bool :=
  allowed.any (fun domain => substrB domain (netlocOf link))

/-! ### Link extraction (crawl.py lines 218-236)

`_extract_links(base_url, html)` iterates over the page's anchor hrefs,
canonicalizes each against `base_url` and collects the results into a set.
The DOM walk itself is the out-of-scope BeautifulSoup collaborator, so a
page body is embedded as its list of hrefs. -/

/-- Strip a `#fragment` suffix. -/
def stripFragment (s : Str) : Str := s.takeWhile (fun c => c ≠ '#')

/-- Scheme name of an absolute URL (the part before the first `:`). -/
def schemeOf (url : Str) : Str := url.takeWhile (fun c => c ≠ ':')

/-- `scheme://netloc` of an absolute URL. -/
def originOf (url : Str) : Str := schemeOf url ++ [':', '/', '/'] ++ netlocOf url

/-- The path through its last `/` (the directory a relative href is
resolved in), defaulting to the root path. -/
def dirOfPath (p : Str) : Str :=
  let r := (p.reverse.dropWhile (fun c => c ≠ '/')).reverse
  if r = [] then ['/'] else r

/-- Modelled from the spec: `canonical_url(base_url, href)` lives in
`utils.py`, which is not under src/.  Spec section 3: "Canonicalization
(resolving relative hrefs against a base, stripping fragments)"; spec
section 6: the Link Extractor "returns every outbound anchor target,
canonicalized to an absolute URL with no fragment".  Accordingly: strip
the fragment, keep absolute hrefs, resolve root-relative hrefs against
the base's origin and other relative hrefs against the base's directory;
an empty href yields nothing. -/
def canonical_url (base href : Str) : Option Str :=
  let h := stripFragment href
  if h = [] then none
  else if (afterSchemeSep h).isSome then some h
  else if h.head? = some '/' then some (originOf base ++ h)
  else some (originOf base ++ dirOfPath (pathOf base) ++ h)

/-- crawl.py `_extract_links(base_url, html)`: canonicalize every anchor
href against `base_url` and collect the successes into a set. -/
def extract_links (base : Str) (hrefs : List Str) : List Str :=
  (hrefs.filterMap (fun a => canonical_url base a)).foldl setInsert []

/-! ### The fetch retry loops (crawl.py lines 35-71 and main.py lines 16-58)

One HTTP attempt is a call to `scrapingbee_client.get`; its outcome is the
response status code (requests' `response.ok` is `status < 400`) or a
raised transport exception.  The per-attempt outcomes of one page are an
oracle `resps : Nat → FetchResult` indexed by the attempt number; the
proxy-parameter rotation the code performs between attempts does not
influence the control flow and is not modelled. -/

/-- Outcome of a single `client.get` call. -/
inductive FetchResult where
  | resp (status : Nat)
  | exc
deriving DecidableEq

/-- requests' `response.ok`: status below 400. -/
def respOk (status : Nat) : Bool := decide (status < 400)

/-- The retry loop inlined in `crawl_with_scrapingbee` (crawl.py lines
35-71), as a recursion over the remaining range iterations.  Returns the
number of `get` calls made from attempt `attempt` on, and the final value
of the `response` variable (`prev` is its value from earlier attempts;
`none` stands for Python `None`).
Control flow per attempt: a response that is `ok` breaks; a 503 continues
when a retry remains and otherwise falls off the loop end; any other
status breaks; an exception breaks on the last attempt and otherwise
sleeps and retries. -/
def crawlRetryGo (resps : Nat → FetchResult) : Nat → Nat → Option Nat → Nat × Option Nat
  | 0, _, prev => (0, prev)
  | remaining + 1, attempt, prev =>
    match resps attempt with
    | .resp s =>
        if respOk s then (1, some s)
        else if s = 503 then
          if attempt < 2 then
            let r := crawlRetryGo resps remaining (attempt + 1) (some s)
            (r.1 + 1, r.2)
          else (1, some s)
        else (1, some s)
    | .exc =>
        if attempt = 2 then (1, prev)
        else
          let r := crawlRetryGo resps remaining (attempt + 1) prev
          (r.1 + 1, r.2)

/-- The whole `max_retries = 3` loop of crawl.py lines 35-71:
(number of `get` calls, final `response`). -/
def crawlRetryModel (resps : Nat → FetchResult) : Nat × Option Nat :=
  crawlRetryGo resps 3 0 none

/-- main.py `fetch_html_with_scrapingbee` (lines 16-58), as a recursion
over the remaining range iterations.  Returns the number of `get` calls
and whether the call returned html (`true`) or raised to its caller
(`false`).
Control flow per attempt: `ok` returns the html; a 503 sleeps and
continues when a retry remains, else raises; any other status raises an
`Exception` - which the function's own generic `except` clause catches,
so with a retry remaining it sleeps and retries, and only on the last
attempt does it re-raise. -/
def fetchHtmlGo (resps : Nat → FetchResult) : Nat → Nat → Nat × Bool
  | 0, _ => (0, false)
  | remaining + 1, attempt =>
    match resps attempt with
    | .resp s =>
        if respOk s then (1, true)
        else if attempt = 2 then (1, false)
        else
          let r := fetchHtmlGo resps remaining (attempt + 1)
          (r.1 + 1, r.2)
    | .exc =>
        if attempt = 2 then (1, false)
        else
          let r := fetchHtmlGo resps remaining (attempt + 1)
          (r.1 + 1, r.2)

/-- The whole `max_retries = 3` loop of main.py lines 16-58. -/
def fetchHtmlModel (resps : Nat → FetchResult) : Nat × Bool :=
  fetchHtmlGo resps 3 0

/-! ### `crawl_with_scrapingbee` (crawl.py lines 12-125)

The live crawl: `main.run` constructs the ScrapingBee client and calls
this function.  It is a sequential loop over a `to_visit` set, a
`visited` set and a `product_urls` set.  Python's sets are embedded as
duplicate-free lists in insertion order; `to_visit.pop()` takes the head.
The per-URL outcome of the inlined retry loop plus body decode is the
fetch oracle: final status with the page's anchor hrefs, or an exception
that escaped to the per-URL `except` handler.  The `fetched` field is an
observational trace of the URLs for which the fetcher was invoked. -/

/-- Aggregate per-URL outcome of the retry loop: the final response
(status and page hrefs), or an exception reaching the per-URL handler. -/
inductive FetchOut where
  | resp (status : Nat) (hrefs : List Str)
  | exc
deriving DecidableEq

/-- Crawl parameters (crawl.py line 12; `concurrency` is accepted but the
function processes URLs one by one, and the queue-batched variant reads
it). -/
structure SBConfig where
  base : Str
  allowed : List Str
  keywords : List Str
  concurrency : Nat
  maxPages : Nat
deriving DecidableEq

/-- Crawl state: `to_visit`, `visited`, `product_urls`, plus the
observational trace of fetched URLs. -/
structure SBState where
  toVisit : List Str
  visited : List Str
  products : List Str
  fetched : List Str
deriving DecidableEq

/-- The body of the `for link in filtered_links` loop (crawl.py lines
92-102): record a product candidate when `_is_product_url` matches, and
enqueue the link when the budget still has room and the link is neither
visited nor already queued.  `visited` already contains the page being
processed, matching the Python state at that point. -/
def sbLinkStep (cfg : SBConfig) (visited : List Str)
    (acc : List Str × List Str) (link : Str) : List Str × List Str :=
  let prods := if is_product_url link cfg.keywords then setInsert acc.1 link else acc.1
  let queue :=
    if visited.length < cfg.maxPages ∧ link ∉ visited ∧ link ∉ acc.2 then
      acc.2 ++ [link]
    else acc.2
  (prods, queue)

/-- The `while to_visit and len(visited) < max_pages` loop of
`crawl_with_scrapingbee` (crawl.py lines 25-118), with a fuel parameter
(`none` = the fuel ran out before the loop did).  Each iteration pops a
URL; a URL already in `visited` is skipped without a fetch; otherwise it
is added to `visited` and fetched.  On a final `ok` response the hrefs
are canonicalized against the crawl's `base` URL (line 76), filtered to
the allowed domains, and fed through `sbLinkStep`; a non-ok final
response or an exception only logs. -/
def sbCrawlLoop (cfg : SBConfig) (o : Str → FetchOut) : Nat → SBState → Option SBState
  | 0, _ => none
  | fuel + 1, st =>
    match st.toVisit with
    | [] => some st
    | u :: rest =>
      if st.visited.length < cfg.maxPages then
        if u ∈ st.visited then
          sbCrawlLoop cfg o fuel ⟨rest, st.visited, st.products, st.fetched⟩
        else
          match o u with
          | .resp s hrefs =>
            if respOk s then
              let filtered := (extract_links cfg.base hrefs).filter
                (fun l => domainAllowed cfg.allowed l)
              let pq := filtered.foldl (sbLinkStep cfg (st.visited ++ [u]))
                (st.products, rest)
              sbCrawlLoop cfg o fuel ⟨pq.2, st.visited ++ [u], pq.1, st.fetched ++ [u]⟩
            else
              sbCrawlLoop cfg o fuel ⟨rest, st.visited ++ [u], st.products, st.fetched ++ [u]⟩
          | .exc =>
            sbCrawlLoop cfg o fuel ⟨rest, st.visited ++ [u], st.products, st.fetched ++ [u]⟩
      else some st

/-- Initial crawl state: `to_visit = {base_url}`, everything else empty. -/
def initSB (base : Str) : SBState := ⟨[base], [], [], []⟩

/-- `crawl_with_scrapingbee`: run the loop from the seeded state and
return `list(product_urls)` (crawl.py line 125). -/
def crawl_with_scrapingbee (cfg : SBConfig) (o : Str → FetchOut) (fuel : Nat) :
    Option (List Str) :=
  (sbCrawlLoop cfg o fuel (initSB cfg.base)).map (fun st => st.products)

/-! ### `_crawl_page` and the batched `crawl` (crawl.py lines 127-211)

The first `crawl` definition (lines 127-164) dispatches batches of up to
`concurrency` URLs to `_crawl_page` and gathers the results.  (A second
`def crawl` later in the file shadows it, so it is not reachable from the
CLI, but it is part of the source.)  `_crawl_page` looks the ScrapingBee
API key up ambiently from the environment in the middle of the crawl;
`apiKey` embeds `os.getenv('SCRAPINGBEE_API_KEY')`. -/

/-- `_crawl_page(client, url, base_url, allowed_domains, keywords)`
(crawl.py lines 166-211).  Returns `((filtered_links, product_urls),
fetch trace)`; the trace records whether the fetcher was actually
invoked for this URL.  A missing API key raises `ValueError` inside the
function's own `try`, so its `except` clause catches it and returns
`(set(), set())` without fetching; a non-200 status or a raised transport
error likewise ends in the `except` clause, after fetching.  Links are
extracted against `base_url` (line 192) and filtered with the inline
domain filter; products are the filtered links `_is_product_url`
matches. -/
def crawl_page (apiKey : Option Str) (o : Str → FetchOut)
    (base : Str) (allowed keywords : List Str) (url : Str) :
    (List Str × List Str) × List Str :=
  match apiKey with
  | none => (([], []), [])
  | some _ =>
    match o url with
    | .resp s hrefs =>
      if s = 200 then
        let filtered := (extract_links base hrefs).filter
          (fun l => domainAllowed allowed l)
        let prods := filtered.filter (fun l => is_product_url l keywords)
        ((filtered, prods), [url])
      else (([], []), [url])
    | .exc => (([], []), [url])

/-- Accumulating one gathered `_crawl_page` result `r = (new_links,
new_products)` into `(product_urls, to_visit)` (crawl.py lines 150-161):
union in the products, then add each new link when the budget has room
and it is unvisited.  `visited` already contains this batch. -/
def batchResultStep (maxPages : Nat) (visited : List Str)
    (acc : List Str × List Str) (r : List Str × List Str) : List Str × List Str :=
  (r.2.foldl setInsert acc.1,
   r.1.foldl
     (fun q l => if visited.length < maxPages ∧ l ∉ visited then setInsert q l else q)
     acc.2)

/-- One step of task selection (crawl.py lines 142-145): `if url not in
visited: tasks.append(...); visited.add(url)`. -/
def batchTaskStep (acc : List Str × List Str) (url : Str) : List Str × List Str :=
  if url ∈ acc.2 then acc else (acc.1 ++ [url], acc.2 ++ [url])

/-- Selecting a batch's tasks (crawl.py lines 141-145): walk the batch in
order, fetch each URL not yet visited and mark it visited.  Returns
(URLs dispatched to `_crawl_page`, updated `visited`). -/
def batchTasks (visited : List Str) (batch : List Str) : List Str × List Str :=
  batch.foldl batchTaskStep ([], visited)

/-- One iteration of the batched `crawl` loop body (crawl.py lines
138-161): take up to `concurrency` URLs as a batch, remove them from
`to_visit`, run `_crawl_page` on the unvisited ones (`_crawl_page`
catches all its own errors, so the gathered results never carry
exceptions) and fold the results into the state. -/
def batchStep (apiKey : Option Str) (cfg : SBConfig) (o : Str → FetchOut)
    (st : SBState) : SBState :=
  let batch := st.toVisit.take cfg.concurrency
  let rest := st.toVisit.drop cfg.concurrency
  let t := batchTasks st.visited batch
  let results := t.1.map
    (fun url => crawl_page apiKey o cfg.base cfg.allowed cfg.keywords url)
  let pq := (results.map (fun r => r.1)).foldl
    (batchResultStep cfg.maxPages t.2) (st.products, rest)
  ⟨pq.2, t.2, pq.1, st.fetched ++ (results.map (fun r => r.2)).flatten⟩

/-- The `while to_visit and len(visited) < max_pages` loop of the batched
`crawl` (crawl.py lines 136-161), with fuel. -/
def batchLoop (apiKey : Option Str) (cfg : SBConfig) (o : Str → FetchOut) :
    Nat → SBState → Option SBState
  | 0, _ => none
  | fuel + 1, st =>
    if st.toVisit = [] ∨ ¬ st.visited.length < cfg.maxPages then some st
    else batchLoop apiKey cfg o fuel (batchStep apiKey cfg o st)

/-- The batched `crawl` entry (crawl.py lines 127-164): seed `to_visit`
with the base URL, loop, return `list(product_urls)`. -/
def batchCrawl (apiKey : Option Str) (cfg : SBConfig) (o : Str → FetchOut)
    (fuel : Nat) : Option (List Str) :=
  (batchLoop apiKey cfg o fuel (initSB cfg.base)).map (fun st => st.products)

/-! ### `main.run` (main.py lines 123-170, crawl-relevant part) -/

/-- The configuration failure `run` checks for. -/
inductive ConfigErr where
  | missingApiKey
deriving DecidableEq

/-- main.py `run` (lines 134-157, the part in scope): read the API key
from the environment; when it is absent, report the error and return
before the crawl is invoked - no fetch of any kind happens.  With a key,
construct the client and call `crawl_with_scrapingbee`. -/
def runM (apiKey : Option Str) (cfg : SBConfig) (o : Str → FetchOut)
    (fuel : Nat) : Except ConfigErr (Option SBState) :=
  match apiKey with
  | none => .error .missingApiKey
  | some _ => .ok (sbCrawlLoop cfg o fuel (initSB cfg.base))

/-! ### Derived notions used to state the claims -/

/-- A per-URL outcome the worker-level handlers of
`crawl_with_scrapingbee` treat as a failure: a final non-ok response
(logged at crawl.py line 113) or an exception (caught at line 117). -/
def fetchFailed : FetchOut → Bool
  | .resp s _ => !respOk s
  | .exc => true

/-- The links a fetch of `u` contributes to the frontier: empty on
failure, otherwise the extracted links restricted to the allowed
domains. -/
def linksOf (cfg : SBConfig) (o : Str → FetchOut) (u : Str) : List Str :=
  match o u with
  | .resp s hrefs =>
      if respOk s then
        (extract_links cfg.base hrefs).filter (fun l => domainAllowed cfg.allowed l)
      else []
  | .exc => []

/-- Termination measure for the `crawl_with_scrapingbee` loop over a
finite URL universe `S`: unvisited budget times a bound on queue growth,
plus the queue length. -/
def sbMeasure (S : Finset Str) (st : SBState) : Nat :=
  (S.card - (S.filter (fun x => x ∈ st.visited)).card) * (S.card + 1) + st.toVisit.length

/-! ### Bridging lemmas: the Bool string operations versus list relations -/

theorem isPrefOf_iff (p h : Str) : isPrefOf p h = true ↔ p <+: h := by
  induction p generalizing h with
  | nil => simp [isPrefOf]
  | cons a as ih =>
    cases h with
    | nil => simp [isPrefOf]
    | cons b bs =>
      simp only [isPrefOf, Bool.and_eq_true, beq_iff_eq, ih, List.cons_prefix_cons]

theorem substrB_iff (p h : Str) : substrB p h = true ↔ p <:+: h := by
  induction h with
  | nil =>
    simp only [substrB, List.infix_nil]
    cases p <;> simp [isPrefOf]
  | cons b bs ih =>
    simp [substrB, isPrefOf_iff, ih, List.infix_cons_iff]

theorem afterSchemeSep_suffix {s r : Str} (h : afterSchemeSep s = some r) : r <:+ s := by
  induction s with
  | nil => simp [afterSchemeSep] at h
  | cons c rest ih =>
    rw [afterSchemeSep] at h
    split at h
    · cases h
      exact (List.drop_suffix 2 rest).trans (List.suffix_cons c rest)
    · exact (ih h).trans (List.suffix_cons c rest)

theorem pathOf_within (url : Str) : pathOf url <:+: url := by
  rw [pathOf]
  cases hsep : afterSchemeSep url with
  | none => exact (List.takeWhile_prefix _).isInfix
  | some r =>
    have h1 : (r.dropWhile (fun c => !endsNetloc c)).takeWhile (fun c => !endsPath c)
        <+: r.dropWhile (fun c => !endsNetloc c) := List.takeWhile_prefix _
    have h2 : r.dropWhile (fun c => !endsNetloc c) <:+ r := List.dropWhile_suffix _
    exact h1.isInfix.trans ((h2.trans (afterSchemeSep_suffix hsep)).isInfix)

theorem lowerStr_within {p q : Str} (h : p <:+: q) : lowerStr p <:+: lowerStr q :=
  List.IsInfix.map _ h

theorem mem_setInsert {l : List Str} {x y : Str} :
    y ∈ setInsert l x ↔ y ∈ l ∨ y = x := by
  rw [setInsert]
  split <;> rename_i hx
  · constructor
    · exact Or.inl
    · rintro (hy | rfl)
      · exact hy
      · exact hx
  · simp

theorem nodup_append_single {l : List Str} {x : Str} (h : l.Nodup) (hx : x ∉ l) :
    (l ++ [x]).Nodup := by
  refine List.nodup_append.mpr ⟨h, List.nodup_singleton x, ?_⟩
  intro y hy hmem
  rw [List.mem_singleton] at hmem
  subst hmem
  exact hx hy

theorem setInsert_nodup {l : List Str} {x : Str} (h : l.Nodup) :
    (setInsert l x).Nodup := by
  rw [setInsert]
  split <;> rename_i hx
  · exact h
  · exact nodup_append_single h hx

theorem foldl_setInsert_nodup : ∀ (ls : List Str) (acc : List Str),
    acc.Nodup → (ls.foldl setInsert acc).Nodup
  | [], _, h => h
  | l :: ls, acc, h => foldl_setInsert_nodup ls (setInsert acc l) (setInsert_nodup h)

theorem extract_links_nodup (base : Str) (hrefs : List Str) :
    (extract_links base hrefs).Nodup :=
  foldl_setInsert_nodup _ [] List.nodup_nil

/-! ### Retry-loop lemmas -/

theorem crawlRetryGo_le (resps : Nat → FetchResult) :
    ∀ remaining attempt prev, (crawlRetryGo resps remaining attempt prev).1 ≤ remaining := by
  intro remaining
  induction remaining with
  | zero => intro attempt prev; simp [crawlRetryGo]
  | succ n ih =>
    intro attempt prev
    cases h : resps attempt with
    | resp s =>
      simp only [crawlRetryGo, h]
      split_ifs
      · simp
      · exact Nat.succ_le_succ (ih (attempt + 1) (some s))
      · simp
      · simp
    | exc =>
      simp only [crawlRetryGo, h]
      split_ifs
      · simp
      · exact Nat.succ_le_succ (ih (attempt + 1) prev)

theorem fetchHtmlGo_le (resps : Nat → FetchResult) :
    ∀ remaining attempt, (fetchHtmlGo resps remaining attempt).1 ≤ remaining := by
  intro remaining
  induction remaining with
  | zero => intro attempt; simp [fetchHtmlGo]
  | succ n ih =>
    intro attempt
    cases h : resps attempt with
    | resp s =>
      simp only [fetchHtmlGo, h]
      split_ifs
      · simp
      · simp
      · exact Nat.succ_le_succ (ih (attempt + 1))
    | exc =>
      simp only [fetchHtmlGo, h]
      split_ifs
      · simp
      · exact Nat.succ_le_succ (ih (attempt + 1))

theorem fetchHtmlGo_pos (resps : Nat → FetchResult) (remaining attempt : Nat) :
    1 ≤ (fetchHtmlGo resps (remaining + 1) attempt).1 := by
  cases h : resps attempt with
  | resp s =>
    simp only [fetchHtmlGo, h]
    split_ifs <;> simp
  | exc =>
    simp only [fetchHtmlGo, h]
    split_ifs <;> simp

theorem crawlRetryGo_step_resp {resps : Nat → FetchResult} {attempt : Nat} {s : Nat}
    (remaining : Nat) (prev : Option Nat) (h : resps attempt = .resp s) :
    crawlRetryGo resps (remaining + 1) attempt prev =
      if respOk s then (1, some s)
      else if s = 503 then
        if attempt < 2 then
          ((crawlRetryGo resps remaining (attempt + 1) (some s)).1 + 1,
           (crawlRetryGo resps remaining (attempt + 1) (some s)).2)
        else (1, some s)
      else (1, some s) := by
  rw [crawlRetryGo, h]

theorem crawlRetryGo_step_exc {resps : Nat → FetchResult} {attempt : Nat}
    (remaining : Nat) (prev : Option Nat) (h : resps attempt = .exc) :
    crawlRetryGo resps (remaining + 1) attempt prev =
      if attempt = 2 then (1, prev)
      else
        ((crawlRetryGo resps remaining (attempt + 1) prev).1 + 1,
         (crawlRetryGo resps remaining (attempt + 1) prev).2) := by
  rw [crawlRetryGo, h]

theorem fetchHtmlGo_step_resp {resps : Nat → FetchResult} {attempt : Nat} {s : Nat}
    (remaining : Nat) (h : resps attempt = .resp s) :
    fetchHtmlGo resps (remaining + 1) attempt =
      if respOk s then (1, true)
      else if attempt = 2 then (1, false)
      else
        ((fetchHtmlGo resps remaining (attempt + 1)).1 + 1,
         (fetchHtmlGo resps remaining (attempt + 1)).2) := by
  rw [fetchHtmlGo, h]

theorem fetchHtmlGo_step_exc {resps : Nat → FetchResult} {attempt : Nat}
    (remaining : Nat) (h : resps attempt = .exc) :
    fetchHtmlGo resps (remaining + 1) attempt =
      if attempt = 2 then (1, false)
      else
        ((fetchHtmlGo resps remaining (attempt + 1)).1 + 1,
         (fetchHtmlGo resps remaining (attempt + 1)).2) := by
  rw [fetchHtmlGo, h]

theorem crawlRetry_second_attempt (resps : Nat → FetchResult)
    (h : 2 ≤ (crawlRetryModel resps).1) :
    resps 0 = .resp 503 ∨ resps 0 = .exc := by
  cases h0 : resps 0 with
  | exc => exact Or.inr rfl
  | resp s =>
    rw [crawlRetryModel, crawlRetryGo_step_resp 2 none h0] at h
    by_cases hok : respOk s = true
    · rw [if_pos hok] at h
      simp at h
    · rw [if_neg (by simp [hok])] at h
      by_cases h503 : s = 503
      · subst h503; exact Or.inl rfl
      · rw [if_neg h503] at h
        simp at h

theorem crawlRetryGo_inner_second (resps : Nat → FetchResult) (prev : Option Nat)
    (h : 2 ≤ (crawlRetryGo resps 2 1 prev).1) :
    resps 1 = .resp 503 ∨ resps 1 = .exc := by
  cases h1 : resps 1 with
  | exc => exact Or.inr rfl
  | resp s =>
    rw [show (2 : Nat) = 1 + 1 from rfl, crawlRetryGo_step_resp 1 prev h1] at h
    by_cases hok : respOk s = true
    · rw [if_pos hok] at h
      simp at h
    · rw [if_neg (by simp [hok])] at h
      by_cases h503 : s = 503
      · subst h503; exact Or.inl rfl
      · rw [if_neg h503] at h
        simp at h

theorem crawlRetry_third_attempt (resps : Nat → FetchResult)
    (h : 3 ≤ (crawlRetryModel resps).1) :
    resps 1 = .resp 503 ∨ resps 1 = .exc := by
  cases h0 : resps 0 with
  | exc =>
    rw [crawlRetryModel, crawlRetryGo_step_exc 2 none h0, if_neg (by omega)] at h
    exact crawlRetryGo_inner_second resps none (by simp at h; omega)
  | resp s =>
    rw [crawlRetryModel, crawlRetryGo_step_resp 2 none h0] at h
    by_cases hok : respOk s = true
    · rw [if_pos hok] at h
      simp at h
    · rw [if_neg (by simp [hok])] at h
      by_cases h503 : s = 503
      · rw [if_pos h503, if_pos (by omega)] at h
        exact crawlRetryGo_inner_second resps (some s) (by simp at h; omega)
      · rw [if_neg h503] at h
        simp at h

theorem fetchHtml_retries_on_error (resps : Nat → FetchResult) (s : Nat)
    (h0 : resps 0 = .resp s) (hok : respOk s = false) :
    2 ≤ (fetchHtmlModel resps).1 := by
  rw [fetchHtmlModel, show (3 : Nat) = 2 + 1 from rfl, fetchHtmlGo_step_resp 2 h0,
    if_neg (by simp [hok]), if_neg (by omega)]
  have h2 : 1 ≤ (fetchHtmlGo resps 2 1).1 := fetchHtmlGo_pos resps 1 1
  exact Nat.succ_le_succ h2

/-! ### Claim C6: fetch retry policy -/

/-- C6 (counterexample): the claim says every non-2xx status other than
503 is a terminal failure with no retry attempted; but
`fetch_html_with_scrapingbee` (main.py lines 16-58) raises on such a
status inside its own `try`, catches it in the generic `except` clause
and retries, so a constant-404 page consumes all 3 attempts, while the
inline retry loop of `crawl_with_scrapingbee` indeed stops after the
first 404. -/
theorem C6_counterexample :
    fetchHtmlModel (fun _ => FetchResult.resp 404) = (3, false)
  ∧ crawlRetryModel (fun _ => FetchResult.resp 404) = (1, some 404) := by
  constructor <;> decide

/-- C6 (amended): each individual page fetch makes at most 3 attempts in
both retry loops.  In `crawl_with_scrapingbee`'s inline loop a retry is
issued only after a 503 response or a transport exception (any other
status breaks the loop).  In `fetch_html_with_scrapingbee` (main.py) a
non-503 error status raises an exception that the loop's own generic
handler catches, so it is retried like a transport error: at least a
second attempt is made. -/
theorem C6_retry_policy_amended :
    (∀ resps, (crawlRetryModel resps).1 ≤ 3)
  ∧ (∀ resps, (fetchHtmlModel resps).1 ≤ 3)
  ∧ (∀ resps, 2 ≤ (crawlRetryModel resps).1 →
      resps 0 = FetchResult.resp 503 ∨ resps 0 = FetchResult.exc)
  ∧ (∀ resps, 3 ≤ (crawlRetryModel resps).1 →
      resps 1 = FetchResult.resp 503 ∨ resps 1 = FetchResult.exc)
  ∧ (∀ resps s, resps 0 = FetchResult.resp s → respOk s = false →
      2 ≤ (fetchHtmlModel resps).1) := by
  refine ⟨fun resps => crawlRetryGo_le resps 3 0 none,
    fun resps => fetchHtmlGo_le resps 3 0,
    crawlRetry_second_attempt,
    crawlRetry_third_attempt,
    fun resps s h0 hok => fetchHtml_retries_on_error resps s h0 hok⟩

/-- C6 (witness): on a page that always answers 404, the main fetch
helper makes a second attempt. -/
theorem C6_retry_policy_witness :
    (fun _ => FetchResult.resp 404) 0 = FetchResult.resp 404
  ∧ respOk 404 = false
  ∧ 2 ≤ (fetchHtmlModel (fun _ => FetchResult.resp 404)).1 :=
  ⟨rfl, by decide,
    C6_retry_policy_amended.2.2.2.2 (fun _ => FetchResult.resp 404) 404 rfl (by decide)⟩

/-! ### Claim C3: product-URL classification -/

/-- C3 (counterexample): the claim says classification is true exactly
when a configured keyword occurs case-insensitively in the URL's path.
`_is_product_url` - the classifier `crawl_with_scrapingbee` and
`_crawl_page` use - matches against the whole lower-cased URL, so a
keyword occurring only in the query string or only in the host also
classifies; and an upper-case keyword never matches either classifier,
so the match is not case-insensitive on the keyword side. -/
theorem C3_counterexample :
    is_product_url ("https://shop.test/about?ref=product".toList) ["product".toList] = true
  ∧ looks_like_product_url ("https://shop.test/about?ref=product".toList)
      ["product".toList] = false
  ∧ is_product_url ("https://product.test/about".toList) ["product".toList] = true
  ∧ looks_like_product_url ("https://product.test/about".toList) ["product".toList] = false
  ∧ looks_like_product_url ("https://shop.test/product/1".toList)
      ["PRODUCT".toList] = false := by
  refine ⟨?_, ?_, ?_, ?_, ?_⟩ <;> decide

/-- C3 (amended): the source has two classifiers.
`_looks_like_product_url` (used only by the final queue-based `crawl`)
returns true iff some configured keyword occurs verbatim in the
lower-cased path - case-insensitive only for keywords that are already
lower-case.  `_is_product_url`, the classifier the live
`crawl_with_scrapingbee` uses, tests keywords against the entire
lower-cased URL, host and query string included; every path match is in
particular a full-URL match. -/
theorem C3_product_classifier_amended :
    (∀ url kws, looks_like_product_url url kws = true ↔
      ∃ k ∈ kws, substrB k (lowerStr (pathOf url)) = true)
  ∧ (∀ url kws, is_product_url url kws = true ↔
      ∃ k ∈ kws, substrB k (lowerStr url) = true)
  ∧ (∀ url kws, looks_like_product_url url kws = true → is_product_url url kws = true) := by
  refine ⟨?_, ?_, ?_⟩
  · intro url kws
    simp [looks_like_product_url, List.any_eq_true]
  · intro url kws
    simp [is_product_url, List.any_eq_true]
  · intro url kws h
    simp only [looks_like_product_url, is_product_url, List.any_eq_true] at h ⊢
    obtain ⟨k, hk, hsub⟩ := h
    refine ⟨k, hk, ?_⟩
    rw [substrB_iff] at hsub ⊢
    exact hsub.trans (lowerStr_within (pathOf_within url))

/-- C3 (witness): a keyword matching the path also matches the full
URL. -/
theorem C3_product_classifier_witness :
    looks_like_product_url ("https://shop.test/product/1".toList) ["product".toList] = true
  ∧ is_product_url ("https://shop.test/product/1".toList) ["product".toList] = true :=
  ⟨by decide,
    C3_product_classifier_amended.2.2 ("https://shop.test/product/1".toList)
      ["product".toList] (by decide)⟩

/-! ### Lemmas about the link-processing fold of `crawl_with_scrapingbee` -/

theorem sbLinkStep_queue_mem {cfg : SBConfig} {vis : List Str}
    {acc : List Str × List Str} {l x : Str}
    (h : x ∈ (sbLinkStep cfg vis acc l).2) : x ∈ acc.2 ∨ x = l := by
  rw [sbLinkStep] at h
  dsimp only at h
  split at h
  · rcases List.mem_append.mp h with hx | hx
    · exact Or.inl hx
    · exact Or.inr (List.mem_singleton.mp hx)
  · exact Or.inl h

theorem sbLinkStep_prods_mem {cfg : SBConfig} {vis : List Str}
    {acc : List Str × List Str} {l x : Str}
    (h : x ∈ (sbLinkStep cfg vis acc l).1) : x ∈ acc.1 ∨ x = l := by
  rw [sbLinkStep] at h
  dsimp only at h
  split at h
  · rcases mem_setInsert.mp h with hx | hx
    · exact Or.inl hx
    · exact Or.inr hx
  · exact Or.inl h

theorem sbLinkStep_prods_mono {cfg : SBConfig} {vis : List Str}
    {acc : List Str × List Str} {l x : Str}
    (h : x ∈ acc.1) : x ∈ (sbLinkStep cfg vis acc l).1 := by
  rw [sbLinkStep]
  dsimp only
  split
  · exact mem_setInsert.mpr (Or.inl h)
  · exact h

theorem sbLinkStep_queue_len {cfg : SBConfig} {vis : List Str}
    {acc : List Str × List Str} {l : Str} :
    (sbLinkStep cfg vis acc l).2.length ≤ acc.2.length + 1 := by
  rw [sbLinkStep]
  dsimp only
  split
  · simp
  · omega

theorem foldl_sbLinkStep_queue_mem (cfg : SBConfig) (vis : List Str) :
    ∀ (ls : List Str) (acc : List Str × List Str) (x : Str),
      x ∈ (ls.foldl (sbLinkStep cfg vis) acc).2 → x ∈ acc.2 ∨ x ∈ ls := by
  intro ls
  induction ls with
  | nil => intro acc x h; exact Or.inl h
  | cons l ls ih =>
    intro acc x h
    rw [List.foldl_cons] at h
    rcases ih _ x h with hx | hx
    · rcases sbLinkStep_queue_mem hx with hx | hx
      · exact Or.inl hx
      · exact Or.inr (by simp [hx])
    · exact Or.inr (List.mem_cons_of_mem l hx)

theorem foldl_sbLinkStep_prods_mem (cfg : SBConfig) (vis : List Str) :
    ∀ (ls : List Str) (acc : List Str × List Str) (x : Str),
      x ∈ (ls.foldl (sbLinkStep cfg vis) acc).1 → x ∈ acc.1 ∨ x ∈ ls := by
  intro ls
  induction ls with
  | nil => intro acc x h; exact Or.inl h
  | cons l ls ih =>
    intro acc x h
    rw [List.foldl_cons] at h
    rcases ih _ x h with hx | hx
    · rcases sbLinkStep_prods_mem hx with hx | hx
      · exact Or.inl hx
      · exact Or.inr (by simp [hx])
    · exact Or.inr (List.mem_cons_of_mem l hx)

theorem foldl_sbLinkStep_prods_mono (cfg : SBConfig) (vis : List Str) :
    ∀ (ls : List Str) (acc : List Str × List Str) (x : Str),
      x ∈ acc.1 → x ∈ (ls.foldl (sbLinkStep cfg vis) acc).1 := by
  intro ls
  induction ls with
  | nil => intro acc x h; exact h
  | cons l ls ih =>
    intro acc x h
    rw [List.foldl_cons]
    exact ih _ x (sbLinkStep_prods_mono h)

theorem foldl_sbLinkStep_prods_insert (cfg : SBConfig) (vis : List Str) :
    ∀ (ls : List Str) (acc : List Str × List Str) (l : Str), l ∈ ls →
      is_product_url l cfg.keywords = true →
      l ∈ (ls.foldl (sbLinkStep cfg vis) acc).1 := by
  intro ls
  induction ls with
  | nil => intro acc l h; exact absurd h (List.not_mem_nil l)
  | cons a ls ih =>
    intro acc l hl hprod
    rw [List.foldl_cons]
    rcases List.mem_cons.mp hl with rfl | hl
    · refine foldl_sbLinkStep_prods_mono cfg vis ls _ l ?_
      rw [sbLinkStep]
      dsimp only
      rw [if_pos hprod]
      exact mem_setInsert.mpr (Or.inr rfl)
    · exact ih _ l hl hprod

theorem foldl_sbLinkStep_queue_len (cfg : SBConfig) (vis : List Str) :
    ∀ (ls : List Str) (acc : List Str × List Str),
      (ls.foldl (sbLinkStep cfg vis) acc).2.length ≤ acc.2.length + ls.length := by
  intro ls
  induction ls with
  | nil => intro acc; simp
  | cons l ls ih =>
    intro acc
    rw [List.foldl_cons]
    calc ((ls.foldl (sbLinkStep cfg vis) (sbLinkStep cfg vis acc l)).2).length
        ≤ (sbLinkStep cfg vis acc l).2.length + ls.length := ih _
      _ ≤ (acc.2.length + 1) + ls.length :=
          Nat.add_le_add_right sbLinkStep_queue_len ls.length
      _ = acc.2.length + (l :: ls).length := by simp; omega

/-! ### Invariants of the `crawl_with_scrapingbee` loop -/

theorem sb_nodup_inv (cfg : SBConfig) (o : Str → FetchOut) :
    ∀ (fuel : Nat) (st st' : SBState),
      sbCrawlLoop cfg o fuel st = some st' →
      st.fetched.Nodup → (∀ x ∈ st.fetched, x ∈ st.visited) →
      st'.fetched.Nodup := by
  intro fuel
  induction fuel with
  | zero => intro st st' h _ _; simp [sbCrawlLoop] at h
  | succ n ih =>
    intro st st' h hnd hsub
    rcases st with ⟨tv, vis, prods, f⟩
    cases tv with
    | nil =>
      simp only [sbCrawlLoop] at h
      cases h
      exact hnd
    | cons u rest =>
      simp only [sbCrawlLoop] at h
      by_cases hb : vis.length < cfg.maxPages
      · rw [if_pos hb] at h
        by_cases hu : u ∈ vis
        · rw [if_pos hu] at h
          exact ih _ _ h hnd hsub
        · rw [if_neg hu] at h
          have hnd' : (f ++ [u]).Nodup :=
            nodup_append_single hnd (fun hf => hu (hsub u hf))
          have hsub' : ∀ x ∈ f ++ [u], x ∈ vis ++ [u] := by
            intro x hx
            rcases List.mem_append.mp hx with hx | hx
            · exact List.mem_append.mpr (Or.inl (hsub x hx))
            · exact List.mem_append.mpr (Or.inr hx)
          cases ho : o u with
          | resp s hrefs =>
            simp only [ho] at h
            by_cases hok : respOk s = true
            · rw [if_pos hok] at h
              exact ih _ _ h hnd' hsub'
            · rw [if_neg hok] at h
              exact ih _ _ h hnd' hsub'
          | exc =>
            simp only [ho] at h
            exact ih _ _ h hnd' hsub'
      · rw [if_neg hb] at h
        cases h
        exact hnd

theorem sb_budget_inv (cfg : SBConfig) (o : Str → FetchOut) :
    ∀ (fuel : Nat) (st st' : SBState),
      sbCrawlLoop cfg o fuel st = some st' →
      st.fetched.length ≤ st.visited.length → st.visited.length ≤ cfg.maxPages →
      st'.fetched.length ≤ cfg.maxPages := by
  intro fuel
  induction fuel with
  | zero => intro st st' h _ _; simp [sbCrawlLoop] at h
  | succ n ih =>
    intro st st' h hfv hvm
    rcases st with ⟨tv, vis, prods, f⟩
    dsimp only at hfv hvm
    cases tv with
    | nil =>
      simp only [sbCrawlLoop] at h
      cases h
      exact le_trans hfv hvm
    | cons u rest =>
      simp only [sbCrawlLoop] at h
      by_cases hb : vis.length < cfg.maxPages
      · rw [if_pos hb] at h
        by_cases hu : u ∈ vis
        · rw [if_pos hu] at h
          exact ih _ _ h hfv hvm
        · rw [if_neg hu] at h
          have hfv' : (f ++ [u]).length ≤ (vis ++ [u]).length := by
            simp only [List.length_append, List.length_singleton]
            omega
          have hvm' : (vis ++ [u]).length ≤ cfg.maxPages := by
            simp only [List.length_append, List.length_singleton]
            omega
          cases ho : o u with
          | resp s hrefs =>
            simp only [ho] at h
            by_cases hok : respOk s = true
            · rw [if_pos hok] at h
              exact ih _ _ h hfv' hvm'
            · rw [if_neg hok] at h
              exact ih _ _ h hfv' hvm'
          | exc =>
            simp only [ho] at h
            exact ih _ _ h hfv' hvm'
      · rw [if_neg hb] at h
        cases h
        exact le_trans hfv hvm

theorem sb_domain_inv (cfg : SBConfig) (o : Str → FetchOut) :
    ∀ (fuel : Nat) (st st' : SBState),
      sbCrawlLoop cfg o fuel st = some st' →
      (∀ x ∈ st.toVisit, domainAllowed cfg.allowed x = true) →
      (∀ x ∈ st.fetched, domainAllowed cfg.allowed x = true) →
      (∀ x ∈ st.products, domainAllowed cfg.allowed x = true) →
      (∀ x ∈ st'.fetched, domainAllowed cfg.allowed x = true) ∧
      (∀ x ∈ st'.products, domainAllowed cfg.allowed x = true) := by
  intro fuel
  induction fuel with
  | zero => intro st st' h _ _ _; simp [sbCrawlLoop] at h
  | succ n ih =>
    intro st st' h htv hf hp
    rcases st with ⟨tv, vis, prods, f⟩
    cases tv with
    | nil =>
      simp only [sbCrawlLoop] at h
      cases h
      exact ⟨hf, hp⟩
    | cons u rest =>
      have hrest : ∀ x ∈ rest, domainAllowed cfg.allowed x = true :=
        fun x hx => htv x (List.mem_cons_of_mem u hx)
      have hu' : domainAllowed cfg.allowed u = true := htv u (List.mem_cons_self u rest)
      have hf' : ∀ x ∈ f ++ [u], domainAllowed cfg.allowed x = true := by
        intro x hx
        rcases List.mem_append.mp hx with hx | hx
        · exact hf x hx
        · rw [List.mem_singleton.mp hx]; exact hu'
      simp only [sbCrawlLoop] at h
      by_cases hb : vis.length < cfg.maxPages
      · rw [if_pos hb] at h
        by_cases hu : u ∈ vis
        · rw [if_pos hu] at h
          exact ih _ _ h hrest hf hp
        · rw [if_neg hu] at h
          cases ho : o u with
          | resp s hrefs =>
            simp only [ho] at h
            by_cases hok : respOk s = true
            · rw [if_pos hok] at h
              refine ih _ _ h ?_ hf' ?_
              · intro x hx
                rcases foldl_sbLinkStep_queue_mem cfg (vis ++ [u]) _ _ x hx with hx | hx
                · exact hrest x hx
                · exact (List.mem_filter.mp hx).2
              · intro x hx
                rcases foldl_sbLinkStep_prods_mem cfg (vis ++ [u]) _ _ x hx with hx | hx
                · exact hp x hx
                · exact (List.mem_filter.mp hx).2
            · rw [if_neg hok] at h
              exact ih _ _ h hrest hf' hp
          | exc =>
            simp only [ho] at h
            exact ih _ _ h hrest hf' hp
      · rw [if_neg hb] at h
        cases h
        exact ⟨hf, hp⟩

theorem sb_products_mono (cfg : SBConfig) (o : Str → FetchOut) :
    ∀ (fuel : Nat) (st st' : SBState),
      sbCrawlLoop cfg o fuel st = some st' →
      ∀ p ∈ st.products, p ∈ st'.products := by
  intro fuel
  induction fuel with
  | zero => intro st st' h; simp [sbCrawlLoop] at h
  | succ n ih =>
    intro st st' h p hp
    rcases st with ⟨tv, vis, prods, f⟩
    cases tv with
    | nil =>
      simp only [sbCrawlLoop] at h
      cases h
      exact hp
    | cons u rest =>
      simp only [sbCrawlLoop] at h
      by_cases hb : vis.length < cfg.maxPages
      · rw [if_pos hb] at h
        by_cases hu : u ∈ vis
        · rw [if_pos hu] at h
          exact ih _ _ h p hp
        · rw [if_neg hu] at h
          cases ho : o u with
          | resp s hrefs =>
            simp only [ho] at h
            by_cases hok : respOk s = true
            · rw [if_pos hok] at h
              exact ih _ _ h p (foldl_sbLinkStep_prods_mono cfg (vis ++ [u]) _ _ p hp)
            · rw [if_neg hok] at h
              exact ih _ _ h p hp
          | exc =>
            simp only [ho] at h
            exact ih _ _ h p hp
      · rw [if_neg hb] at h
        cases h
        exact hp

/-! ### Claim C1: no duplicate fetch -/

/-- C1: in every `crawl_with_scrapingbee` run, no URL is passed to the
page fetcher more than once: the `visited` membership check and insert
(crawl.py lines 29-30) precede the fetch, so the trace of fetched URLs
has no duplicates, no matter how often a URL was enqueued. -/
theorem C1_no_duplicate_fetch (cfg : SBConfig) (o : Str → FetchOut) (fuel : Nat)
    (st' : SBState) (h : sbCrawlLoop cfg o fuel (initSB cfg.base) = some st') :
    st'.fetched.Nodup :=
  sb_nodup_inv cfg o fuel _ st' h List.nodup_nil
    (fun x hx => absurd hx (List.not_mem_nil x))

/-- C1 (witness): a one-page crawl whose only fetch fails; the final
fetch trace is duplicate-free. -/
theorem C1_no_duplicate_fetch_witness :
    sbCrawlLoop ⟨['b'], [], [], 1, 5⟩ (fun _ => FetchOut.exc) 3 (initSB ['b'])
      = some ⟨[], [['b']], [], [['b']]⟩
  ∧ (SBState.mk [] [['b']] [] [['b']]).fetched.Nodup :=
  ⟨by decide,
    C1_no_duplicate_fetch ⟨['b'], [], [], 1, 5⟩ (fun _ => FetchOut.exc) 3
      ⟨[], [['b']], [], [['b']]⟩ (by decide)⟩

/-! ### Claim C5: domain containment -/

/-- C5: in every `crawl_with_scrapingbee` run whose seed is inside the
allowed domains, a URL whose host does not match any allowed domain is
never passed to the page fetcher and never appears in the returned
product-candidate set: the domain filter (crawl.py lines 79-84) guards
every enqueue and every candidate insertion. -/
theorem C5_domain_containment (cfg : SBConfig) (o : Str → FetchOut) (fuel : Nat)
    (st' : SBState) (u : Str)
    (hbase : domainAllowed cfg.allowed cfg.base = true)
    (hu : domainAllowed cfg.allowed u = false)
    (hrun : sbCrawlLoop cfg o fuel (initSB cfg.base) = some st') :
    u ∉ st'.fetched ∧ u ∉ st'.products := by
  obtain ⟨hf, hp⟩ := sb_domain_inv cfg o fuel _ st' hrun
    (by
      intro x hx
      have hx' : x = cfg.base := by simpa [initSB] using hx
      rw [hx']
      exact hbase)
    (fun x hx => absurd hx (List.not_mem_nil x))
    (fun x hx => absurd hx (List.not_mem_nil x))
  constructor
  · intro hmem
    rw [hf u hmem] at hu
    exact absurd hu (by decide)
  · intro hmem
    rw [hp u hmem] at hu
    exact absurd hu (by decide)

/-- C5 (witness): with seed `h://a/` and allowed domain `a`, the
off-domain URL `h://z/` is neither fetched nor reported. -/
theorem C5_domain_containment_witness :
    domainAllowed ["a".toList] ("h://a/".toList) = true
  ∧ domainAllowed ["a".toList] ("h://z/".toList) = false
  ∧ sbCrawlLoop ⟨"h://a/".toList, ["a".toList], [], 1, 5⟩ (fun _ => FetchOut.exc) 3
      (initSB ("h://a/".toList)) = some ⟨[], ["h://a/".toList], [], ["h://a/".toList]⟩
  ∧ ("h://z/".toList ∉ (SBState.mk [] ["h://a/".toList] [] ["h://a/".toList]).fetched
      ∧ "h://z/".toList ∉ (SBState.mk [] ["h://a/".toList] [] ["h://a/".toList]).products) :=
  ⟨by decide, by decide, by decide,
    C5_domain_containment ⟨"h://a/".toList, ["a".toList], [], 1, 5⟩ (fun _ => FetchOut.exc)
      3 ⟨[], ["h://a/".toList], [], ["h://a/".toList]⟩ ("h://z/".toList)
      (by decide) (by decide) (by decide)⟩

/-! ### Claim C8: per-URL failure containment -/

/-- C8: a fetch failure on a URL (final error status or exception,
retries already exhausted inside the per-URL fetch) is contained at the
loop level of `crawl_with_scrapingbee`: the iteration reduces to
continuing the crawl with the remaining URLs (the URL just marked
visited, nothing else changed), no error propagates out, and every
product candidate accumulated so far is still in the returned set. -/
theorem C8_failure_containment (cfg : SBConfig) (o : Str → FetchOut) (fuel : Nat)
    (u : Str) (rest vis prods f : List Str)
    (hb : vis.length < cfg.maxPages) (hu : u ∉ vis)
    (hfail : fetchFailed (o u) = true) :
    sbCrawlLoop cfg o (fuel + 1) ⟨u :: rest, vis, prods, f⟩
      = sbCrawlLoop cfg o fuel ⟨rest, vis ++ [u], prods, f ++ [u]⟩
  ∧ ∀ st', sbCrawlLoop cfg o fuel ⟨rest, vis ++ [u], prods, f ++ [u]⟩ = some st' →
      ∀ p ∈ prods, p ∈ st'.products := by
  constructor
  · cases ho : o u with
    | resp s hrefs =>
      have hok : respOk s = false := by
        rw [ho] at hfail
        simpa [fetchFailed] using hfail
      simp only [sbCrawlLoop, if_pos hb, if_neg hu, ho, hok]
      simp
    | exc =>
      simp only [sbCrawlLoop, if_pos hb, if_neg hu, ho]
  · intro st' h p hp
    exact sb_products_mono cfg o fuel _ st' h p hp

/-- C8 (witness): one failing fetch, the already-recorded candidate
survives into the continuation. -/
theorem C8_failure_containment_witness :
    (0 : Nat) < 5
  ∧ (['b'] ∉ ([] : List Str))
  ∧ fetchFailed ((fun _ => FetchOut.exc) ['b']) = true
  ∧ sbCrawlLoop ⟨['b'], [], [], 1, 5⟩ (fun _ => FetchOut.exc) 2 ⟨[['b']], [], [['p']], []⟩
      = sbCrawlLoop ⟨['b'], [], [], 1, 5⟩ (fun _ => FetchOut.exc) 1
          ⟨[], [] ++ [['b']], [['p']], [] ++ [['b']]⟩ :=
  ⟨by decide, by decide, by decide,
    (C8_failure_containment ⟨['b'], [], [], 1, 5⟩ (fun _ => FetchOut.exc) 1 ['b'] [] []
      [['p']] [] (by decide) (by decide) (by decide)).1⟩

/-! ### Claim C10: candidates recorded at discovery time -/

/-- C10: when a page fetch succeeds, every link of that page that passes
the domain filter and matches the keyword classifier is inserted into
the product set at that very iteration - before any fetch of the link
itself - and, the product set being monotone, it is in the returned set
whatever happens later (its own fetch may fail via the arbitrary oracle,
or never happen because the budget runs out). -/
theorem C10_candidate_at_discovery (cfg : SBConfig) (o : Str → FetchOut) (fuel : Nat)
    (u : Str) (rest vis prods f : List Str) (st' : SBState) (s : Nat)
    (hrefs : List Str) (l : Str)
    (hb : vis.length < cfg.maxPages) (hu : u ∉ vis)
    (ho : o u = .resp s hrefs) (hok : respOk s = true)
    (hl : l ∈ (extract_links cfg.base hrefs).filter (fun x => domainAllowed cfg.allowed x))
    (hprod : is_product_url l cfg.keywords = true)
    (hrun : sbCrawlLoop cfg o (fuel + 1) ⟨u :: rest, vis, prods, f⟩ = some st') :
    l ∈ st'.products := by
  simp only [sbCrawlLoop, if_pos hb, if_neg hu, ho, if_pos hok] at hrun
  exact sb_products_mono cfg o fuel _ st' hrun l
    (foldl_sbLinkStep_prods_insert cfg (vis ++ [u]) _ _ l hl hprod)

/-- C10 (witness): the seed page links to product `h://s/p1`; the
product is recorded at discovery although its own later fetch raises. -/
theorem C10_candidate_at_discovery_witness :
    (0 : Nat) < 5
  ∧ ("h://s/".toList ∉ ([] : List Str))
  ∧ (fun u => if u = "h://s/".toList then FetchOut.resp 200 ["h://s/p1".toList]
      else FetchOut.exc) ("h://s/".toList) = FetchOut.resp 200 ["h://s/p1".toList]
  ∧ respOk 200 = true
  ∧ "h://s/p1".toList ∈ (extract_links ("h://s/".toList) ["h://s/p1".toList]).filter
      (fun x => domainAllowed ["s".toList] x)
  ∧ is_product_url ("h://s/p1".toList) ["p".toList] = true
  ∧ sbCrawlLoop ⟨"h://s/".toList, ["s".toList], ["p".toList], 1, 5⟩
      (fun u => if u = "h://s/".toList then FetchOut.resp 200 ["h://s/p1".toList]
        else FetchOut.exc) 3 ⟨["h://s/".toList], [], [], []⟩
      = some ⟨[], ["h://s/".toList, "h://s/p1".toList], ["h://s/p1".toList],
          ["h://s/".toList, "h://s/p1".toList]⟩
  ∧ "h://s/p1".toList ∈ (SBState.mk [] ["h://s/".toList, "h://s/p1".toList]
      ["h://s/p1".toList] ["h://s/".toList, "h://s/p1".toList]).products :=
  ⟨by decide, by decide, by decide, by decide, by decide, by decide, by decide,
    C10_candidate_at_discovery ⟨"h://s/".toList, ["s".toList], ["p".toList], 1, 5⟩
      (fun u => if u = "h://s/".toList then FetchOut.resp 200 ["h://s/p1".toList]
        else FetchOut.exc) 2 ("h://s/".toList) [] [] [] []
      ⟨[], ["h://s/".toList, "h://s/p1".toList], ["h://s/p1".toList],
        ["h://s/".toList, "h://s/p1".toList]⟩ 200 ["h://s/p1".toList]
      ("h://s/p1".toList) (by decide) (by decide) (by decide) (by decide) (by decide)
      (by decide) (by decide)⟩

/-! ### Lemmas about the batched crawl -/

theorem batchTaskStep_fst_len (acc : List Str × List Str) (url : Str) :
    (batchTaskStep acc url).1.length ≤ acc.1.length + 1 := by
  rw [batchTaskStep]
  split
  · omega
  · simp

theorem batchTaskStep_balance (acc : List Str × List Str) (url : Str) :
    (batchTaskStep acc url).2.length + acc.1.length
      = (batchTaskStep acc url).1.length + acc.2.length := by
  rw [batchTaskStep]
  split
  · omega
  · simp only [List.length_append, List.length_singleton]
    omega

theorem batchTasks_go_len :
    ∀ (batch : List Str) (acc : List Str × List Str),
      (batch.foldl batchTaskStep acc).2.length + acc.1.length
        = (batch.foldl batchTaskStep acc).1.length + acc.2.length
    ∧ (batch.foldl batchTaskStep acc).1.length ≤ acc.1.length + batch.length := by
  intro batch
  induction batch with
  | nil =>
    intro acc
    rw [List.foldl_nil]
    constructor
    · omega
    · simp
  | cons u bs ih =>
    intro acc
    rw [List.foldl_cons]
    rcases ih (batchTaskStep acc u) with ⟨ih1, ih2⟩
    have h1 := batchTaskStep_fst_len acc u
    have h2 := batchTaskStep_balance acc u
    constructor
    · omega
    · simp only [List.length_cons]
      omega

theorem batchTasks_len (visited batch : List Str) :
    (batchTasks visited batch).2.length
      = (batchTasks visited batch).1.length + visited.length
    ∧ (batchTasks visited batch).1.length ≤ batch.length := by
  rcases batchTasks_go_len batch ([], visited) with ⟨h1, h2⟩
  rw [batchTasks]
  simp only [List.length_nil] at h1 h2
  constructor
  · omega
  · omega

theorem crawl_page_trace_len (apiKey : Option Str) (o : Str → FetchOut)
    (base : Str) (allowed keywords : List Str) (url : Str) :
    (crawl_page apiKey o base allowed keywords url).2.length ≤ 1 := by
  cases apiKey with
  | none => simp [crawl_page]
  | some k =>
    cases ho : o url with
    | resp s hrefs =>
      simp only [crawl_page, ho]
      split <;> simp
    | exc => simp [crawl_page, ho]

theorem flatten_traces_len :
    ∀ (rs : List ((List Str × List Str) × List Str)),
      (∀ r ∈ rs, r.2.length ≤ 1) →
      ((rs.map (fun r => r.2)).flatten).length ≤ rs.length := by
  intro rs
  induction rs with
  | nil => intro _; simp
  | cons r rs ih =>
    intro h
    simp only [List.map_cons, List.flatten_cons, List.length_append, List.length_cons]
    have h1 := h r (List.mem_cons_self r rs)
    have h2 := ih (fun x hx => h x (List.mem_cons_of_mem r hx))
    omega

theorem batchStep_budget (apiKey : Option Str) (cfg : SBConfig) (o : Str → FetchOut)
    (st : SBState) :
    (batchStep apiKey cfg o st).visited.length
        ≤ st.visited.length + cfg.concurrency
    ∧ (batchStep apiKey cfg o st).fetched.length + st.visited.length
        ≤ st.fetched.length + (batchStep apiKey cfg o st).visited.length := by
  rw [batchStep]
  dsimp only
  rcases batchTasks_len st.visited (st.toVisit.take cfg.concurrency) with ⟨h1, h2⟩
  have h3 : (st.toVisit.take cfg.concurrency).length ≤ cfg.concurrency :=
    List.length_take_le cfg.concurrency st.toVisit
  have h4 : (((batchTasks st.visited (st.toVisit.take cfg.concurrency)).1.map
      (fun url => crawl_page apiKey o cfg.base cfg.allowed cfg.keywords url)).map
        (fun r => r.2)).flatten.length
      ≤ (batchTasks st.visited (st.toVisit.take cfg.concurrency)).1.length := by
    have := flatten_traces_len
      ((batchTasks st.visited (st.toVisit.take cfg.concurrency)).1.map
        (fun url => crawl_page apiKey o cfg.base cfg.allowed cfg.keywords url))
      (by
        intro r hr
        rcases List.mem_map.mp hr with ⟨url, _, rfl⟩
        exact crawl_page_trace_len apiKey o cfg.base cfg.allowed cfg.keywords url)
    simpa using this
  simp only [List.length_append]
  omega

theorem batch_budget_inv (apiKey : Option Str) (cfg : SBConfig) (o : Str → FetchOut) :
    ∀ (fuel : Nat) (st st' : SBState),
      batchLoop apiKey cfg o fuel st = some st' →
      st.fetched.length ≤ st.visited.length →
      st.visited.length ≤ cfg.maxPages - 1 + cfg.concurrency →
      st'.fetched.length ≤ cfg.maxPages - 1 + cfg.concurrency := by
  intro fuel
  induction fuel with
  | zero => intro st st' h _ _; simp [batchLoop] at h
  | succ n ih =>
    intro st st' h hfv hvm
    rw [batchLoop] at h
    by_cases hg : st.toVisit = [] ∨ ¬ st.visited.length < cfg.maxPages
    · rw [if_pos hg] at h
      cases h
      omega
    · rw [if_neg hg] at h
      push_neg at hg
      rcases batchStep_budget apiKey cfg o st with ⟨b1, b2⟩
      exact ih _ _ h (by omega) (by omega)

/-! ### Claim C2: page-budget bound -/

/-- C2 (counterexample): the claim says the number of fetches never
exceeds `maxPages`.  In the batched `crawl` (crawl.py lines 136-144) the
budget is only checked before a batch is formed, and every unvisited URL
of the batch is fetched: with `max_pages = 2`, `concurrency = 3` and a
seed page linking to three in-domain URLs, the run fetches 4 pages. -/
theorem C2_counterexample :
    ((batchLoop (some ['k']) ⟨"h://s.t/".toList, ["s.t".toList], [], 3, 2⟩
        (fun u => if u = "h://s.t/".toList
          then FetchOut.resp 200
            ["h://s.t/a".toList, "h://s.t/b".toList, "h://s.t/c".toList]
          else FetchOut.resp 200 []) 5
        (initSB ("h://s.t/".toList))).map (fun st => st.fetched.length)) = some 4
  ∧ (2 : Nat) < 4 := by
  constructor
  · decide
  · decide

/-- C2 (amended): `crawl_with_scrapingbee` fetches at most `maxPages`
URLs (the loop guard precedes every fetch and every fetch adds one
visited URL).  The batched `crawl` issues no further batch once the
visited count has reached `maxPages`, but the final batch may overshoot:
its fetch count is only bounded by `maxPages - 1 + concurrency`. -/
theorem C2_budget_bound_amended :
    (∀ (cfg : SBConfig) (o : Str → FetchOut) (fuel : Nat) (st' : SBState),
      sbCrawlLoop cfg o fuel (initSB cfg.base) = some st' →
      st'.fetched.length ≤ cfg.maxPages)
  ∧ (∀ (apiKey : Option Str) (cfg : SBConfig) (o : Str → FetchOut) (fuel : Nat)
      (st : SBState), cfg.maxPages ≤ st.visited.length →
      batchLoop apiKey cfg o (fuel + 1) st = some st)
  ∧ (∀ (apiKey : Option Str) (cfg : SBConfig) (o : Str → FetchOut) (fuel : Nat)
      (st' : SBState), batchLoop apiKey cfg o fuel (initSB cfg.base) = some st' →
      st'.fetched.length ≤ cfg.maxPages - 1 + cfg.concurrency) := by
  refine ⟨?_, ?_, ?_⟩
  · intro cfg o fuel st' h
    exact sb_budget_inv cfg o fuel _ st' h (Nat.le_refl 0) (Nat.zero_le _)
  · intro apiKey cfg o fuel st hv
    rw [batchLoop, if_pos (Or.inr (by omega))]
  · intro apiKey cfg o fuel st' h
    exact batch_budget_inv apiKey cfg o fuel _ st' h (Nat.le_refl 0) (Nat.zero_le _)

/-- C2 (witness): a state whose visited count has reached the budget is
returned unchanged - no further fetch is issued. -/
theorem C2_budget_bound_witness :
    (2 : Nat) ≤ (SBState.mk [['x']] [['a'], ['b']] [] []).visited.length
  ∧ batchLoop none ⟨['b'], [], [], 1, 2⟩ (fun _ => FetchOut.exc) 1
      (SBState.mk [['x']] [['a'], ['b']] [] [])
      = some (SBState.mk [['x']] [['a'], ['b']] [] []) :=
  ⟨by decide,
    C2_budget_bound_amended.2.1 none ⟨['b'], [], [], 1, 2⟩ (fun _ => FetchOut.exc) 0
      (SBState.mk [['x']] [['a'], ['b']] [] []) (by decide)⟩

/-! ### Claim C4: relative links resolved against the wrong base -/

/-- C4 (code bug): the claim - and the spec - say hrefs are resolved
against the fetched page's own URL.  `crawl_with_scrapingbee` calls
`_extract_links(base_url, html)` (crawl.py line 76), resolving every
relative href against the crawl's seed instead (as does `_crawl_page`
at line 192; only the final queue-based `crawl` passes the page's own
URL at line 296).  Crawling seed `h://s.t/` whose page links to
`c/p.h`, and that page in turn to the relative `i1.h`, the crawl reports
`h://s.t/i1.h`, while resolution against the page's own URL - what the
spec prescribes, with the rationale "so that relative links on nested
pages resolve correctly" - yields `h://s.t/c/i1.h`, which the crawl
never produces. -/
theorem C4_link_resolution_bug :
    crawl_with_scrapingbee ⟨"h://s.t/".toList, ["s.t".toList], ["i1".toList], 1, 10⟩
      (fun u => if u = "h://s.t/".toList then FetchOut.resp 200 ["c/p.h".toList]
        else if u = "h://s.t/c/p.h".toList then FetchOut.resp 200 ["i1.h".toList]
        else FetchOut.resp 200 []) 10 = some ["h://s.t/i1.h".toList]
  ∧ canonical_url ("h://s.t/c/p.h".toList) ("i1.h".toList)
      = some ("h://s.t/c/i1.h".toList)
  ∧ decide ("h://s.t/c/i1.h".toList ∈ ["h://s.t/i1.h".toList]) = false := by
  refine ⟨?_, ?_, ?_⟩ <;> decide

/-! ### Claim C7: missing credential handling -/

/-- C7 (counterexample): the claim says a missing API key is fatal to
the whole crawl rather than being contained as a per-URL failure.  In
the batched `crawl`, `_crawl_page` looks the key up per URL, raises
`ValueError` inside its own `try` and falls into its per-URL `except`
clause: with no key the crawl does not abort - it completes normally
and returns an empty candidate list, where the same run with a key
returns the discovered product. -/
theorem C7_counterexample :
    batchCrawl none ⟨"h://s.t/".toList, ["s.t".toList], ["p9".toList], 2, 10⟩
      (fun u => if u = "h://s.t/".toList then FetchOut.resp 200 ["h://s.t/p9".toList]
        else FetchOut.resp 200 []) 5 = some []
  ∧ batchCrawl (some ['k']) ⟨"h://s.t/".toList, ["s.t".toList], ["p9".toList], 2, 10⟩
      (fun u => if u = "h://s.t/".toList then FetchOut.resp 200 ["h://s.t/p9".toList]
        else FetchOut.resp 200 []) 5 = some ["h://s.t/p9".toList] := by
  constructor
  · decide
  · decide

/-- C7 (amended): in the `main.run` entry point a missing API key aborts
before the crawl starts, so no fetch of any kind is attempted.  In the
superseded `crawl`/`_crawl_page`/`fetch` implementations the ambient key
lookup happens per URL and the failure is contained by the per-URL
handler: every page yields empty results without any fetch, and the
crawl completes normally (here: the seed-only run returns the empty
candidate set with an empty fetch trace) instead of aborting. -/
theorem C7_config_error_amended :
    (∀ (cfg : SBConfig) (o : Str → FetchOut) (fuel : Nat),
      runM none cfg o fuel = Except.error ConfigErr.missingApiKey)
  ∧ (∀ (o : Str → FetchOut) (base : Str) (allowed keywords : List Str) (url : Str),
      crawl_page none o base allowed keywords url = (([], []), []))
  ∧ (∀ (cfg : SBConfig) (o : Str → FetchOut) (fuel : Nat),
      0 < cfg.maxPages → 0 < cfg.concurrency →
      batchLoop none cfg o (fuel + 2) (initSB cfg.base)
        = some ⟨[], [cfg.base], [], []⟩) := by
  refine ⟨?_, ?_, ?_⟩
  · intro cfg o fuel
    rfl
  · intro o base allowed keywords url
    rfl
  · intro cfg o fuel hmp hc
    obtain ⟨k, hk⟩ : ∃ k, cfg.concurrency = k + 1 := ⟨cfg.concurrency - 1, by omega⟩
    rw [batchLoop, if_neg (by simp [initSB, hmp])]
    have hstep : batchStep none cfg o (initSB cfg.base)
        = ⟨[], [cfg.base], [], []⟩ := by
      rw [batchStep]
      simp [initSB, hk, batchTasks, batchTaskStep, batchResultStep, crawl_page]
    rw [hstep, batchLoop, if_pos (Or.inl rfl)]

/-- C7 (witness): a seed-only configuration with no API key completes
with nothing fetched and nothing found. -/
theorem C7_config_error_witness :
    (0 : Nat) < 10
  ∧ (0 : Nat) < 2
  ∧ batchLoop none ⟨['b'], [], [], 2, 10⟩ (fun _ => FetchOut.exc) (0 + 2)
      (initSB ['b']) = some ⟨[], [['b']], [], []⟩ :=
  ⟨by decide, by decide,
    C7_config_error_amended.2.2 ⟨['b'], [], [], 2, 10⟩ (fun _ => FetchOut.exc) 0
      (by decide) (by decide)⟩

/-! ### Termination of the `crawl_with_scrapingbee` loop (claim C9) -/

theorem nodup_sub_card {l : List Str} {S : Finset Str}
    (hn : l.Nodup) (hsub : ∀ x ∈ l, x ∈ S) : l.length ≤ S.card := by
  have h1 : l.toFinset.card = l.length := List.toFinset_card_of_nodup hn
  have h2 : l.toFinset ⊆ S := fun x hx => hsub x (List.mem_toFinset.mp hx)
  calc l.length = l.toFinset.card := h1.symm
    _ ≤ S.card := Finset.card_le_card h2

theorem filter_append_card {S : Finset Str} {vis : List Str} {u : Str}
    (hu : u ∈ S) (hnu : u ∉ vis) :
    (S.filter (fun x => x ∈ vis ++ [u])).card
      = (S.filter (fun x => x ∈ vis)).card + 1 := by
  have he : S.filter (fun x => x ∈ vis ++ [u])
      = insert u (S.filter (fun x => x ∈ vis)) := by
    ext x
    simp only [Finset.mem_filter, Finset.mem_insert, List.mem_append, List.mem_singleton]
    constructor
    · rintro ⟨hxS, hx | rfl⟩
      · exact Or.inr ⟨hxS, hx⟩
      · exact Or.inl rfl
    · rintro (rfl | ⟨hxS, hx⟩)
      · exact ⟨hu, Or.inr rfl⟩
      · exact ⟨hxS, Or.inl hx⟩
  rw [he, Finset.card_insert_of_not_mem (by simp [hnu])]

theorem measure_lt {c v q qp : Nat} (hv : v < c) (hqp : qp + 1 ≤ q + c) :
    (c - (v + 1)) * (c + 1) + qp < (c - v) * (c + 1) + q := by
  have h1 : c - v = (c - (v + 1)) + 1 := by omega
  rw [h1, Nat.succ_mul]
  omega

theorem sb_term_aux (cfg : SBConfig) (o : Str → FetchOut) (S : Finset Str)
    (hS : ∀ u l, l ∈ linksOf cfg o u → l ∈ S)
    (hmp : S.card < cfg.maxPages) :
    ∀ (fuel : Nat) (st : SBState),
      (∀ x ∈ st.toVisit, x ∈ S) → st.visited.Nodup → (∀ x ∈ st.visited, x ∈ S) →
      sbMeasure S st < fuel →
      ∃ st', sbCrawlLoop cfg o fuel st = some st' ∧ st'.toVisit = [] := by
  intro fuel
  induction fuel with
  | zero => intro st _ _ _ hm; omega
  | succ n ih =>
    intro st htv hnd hvS hm
    rcases st with ⟨tv, vis, prods, f⟩
    dsimp only at htv hnd hvS
    cases tv with
    | nil =>
      refine ⟨⟨[], vis, prods, f⟩, ?_, rfl⟩
      simp [sbCrawlLoop]
    | cons u rest =>
      have hguard : vis.length < cfg.maxPages :=
        lt_of_le_of_lt (nodup_sub_card hnd hvS) hmp
      have huS : u ∈ S := htv u (List.mem_cons_self u rest)
      have hrest : ∀ x ∈ rest, x ∈ S := fun x hx => htv x (List.mem_cons_of_mem u hx)
      by_cases hu : u ∈ vis
      · have hstep : sbCrawlLoop cfg o (n + 1) ⟨u :: rest, vis, prods, f⟩
            = sbCrawlLoop cfg o n ⟨rest, vis, prods, f⟩ := by
          simp only [sbCrawlLoop, if_pos hguard, if_pos hu]
        rw [hstep]
        refine ih ⟨rest, vis, prods, f⟩ hrest hnd hvS ?_
        have hlt : sbMeasure S ⟨rest, vis, prods, f⟩
            < sbMeasure S ⟨u :: rest, vis, prods, f⟩ := by
          rw [sbMeasure, sbMeasure]
          dsimp only
          simp only [List.length_cons]
          omega
        omega
      · have hnd' : (vis ++ [u]).Nodup := nodup_append_single hnd hu
        have hvS' : ∀ x ∈ vis ++ [u], x ∈ S := by
          intro x hx
          rcases List.mem_append.mp hx with hx | hx
          · exact hvS x hx
          · rw [List.mem_singleton.mp hx]; exact huS
        have hcard : (S.filter (fun x => x ∈ vis ++ [u])).card
            = (S.filter (fun x => x ∈ vis)).card + 1 := filter_append_card huS hu
        have hcard_le : (S.filter (fun x => x ∈ vis ++ [u])).card ≤ S.card :=
          Finset.card_filter_le S _
        cases ho : o u with
        | exc =>
          have hstep : sbCrawlLoop cfg o (n + 1) ⟨u :: rest, vis, prods, f⟩
              = sbCrawlLoop cfg o n ⟨rest, vis ++ [u], prods, f ++ [u]⟩ := by
            simp only [sbCrawlLoop, if_pos hguard, if_neg hu, ho]
          rw [hstep]
          refine ih ⟨rest, vis ++ [u], prods, f ++ [u]⟩ hrest hnd' hvS' ?_
          have hlt : sbMeasure S ⟨rest, vis ++ [u], prods, f ++ [u]⟩
              < sbMeasure S ⟨u :: rest, vis, prods, f⟩ := by
            rw [sbMeasure, sbMeasure]
            dsimp only
            rw [hcard]
            simp only [List.length_cons]
            exact measure_lt (by omega) (by omega)
          omega
        | resp s hrefs =>
          by_cases hok : respOk s = true
          · have hfil : linksOf cfg o u
                = (extract_links cfg.base hrefs).filter
                    (fun l => domainAllowed cfg.allowed l) := by
              simp only [linksOf, ho]
              rw [if_pos hok]
            have hFnodup : ((extract_links cfg.base hrefs).filter
                (fun l => domainAllowed cfg.allowed l)).Nodup :=
              List.Nodup.filter _ (extract_links_nodup cfg.base hrefs)
            have hFS : ∀ x ∈ (extract_links cfg.base hrefs).filter
                (fun l => domainAllowed cfg.allowed l), x ∈ S := by
              intro x hx
              refine hS u x ?_
              rw [hfil]
              exact hx
            have hFlen : ((extract_links cfg.base hrefs).filter
                (fun l => domainAllowed cfg.allowed l)).length ≤ S.card :=
              nodup_sub_card hFnodup hFS
            have hstep : sbCrawlLoop cfg o (n + 1) ⟨u :: rest, vis, prods, f⟩
                = sbCrawlLoop cfg o n
                    ⟨(((extract_links cfg.base hrefs).filter
                        (fun l => domainAllowed cfg.allowed l)).foldl
                        (sbLinkStep cfg (vis ++ [u])) (prods, rest)).2,
                     vis ++ [u],
                     (((extract_links cfg.base hrefs).filter
                        (fun l => domainAllowed cfg.allowed l)).foldl
                        (sbLinkStep cfg (vis ++ [u])) (prods, rest)).1,
                     f ++ [u]⟩ := by
              simp only [sbCrawlLoop, if_pos hguard, if_neg hu, ho, if_pos hok]
            rw [hstep]
            refine ih _ ?_ hnd' hvS' ?_
            · intro x hx
              rcases foldl_sbLinkStep_queue_mem cfg (vis ++ [u]) _ _ x hx with hx | hx
              · exact hrest x hx
              · exact hFS x hx
            · have hqlen : (((extract_links cfg.base hrefs).filter
                  (fun l => domainAllowed cfg.allowed l)).foldl
                  (sbLinkStep cfg (vis ++ [u])) (prods, rest)).2.length
                  ≤ rest.length + S.card := by
                have h1 := foldl_sbLinkStep_queue_len cfg (vis ++ [u])
                  ((extract_links cfg.base hrefs).filter
                    (fun l => domainAllowed cfg.allowed l)) (prods, rest)
                dsimp only at h1
                omega
              have hlt : sbMeasure S
                  ⟨(((extract_links cfg.base hrefs).filter
                      (fun l => domainAllowed cfg.allowed l)).foldl
                      (sbLinkStep cfg (vis ++ [u])) (prods, rest)).2,
                   vis ++ [u],
                   (((extract_links cfg.base hrefs).filter
                      (fun l => domainAllowed cfg.allowed l)).foldl
                      (sbLinkStep cfg (vis ++ [u])) (prods, rest)).1,
                   f ++ [u]⟩
                  < sbMeasure S ⟨u :: rest, vis, prods, f⟩ := by
                rw [sbMeasure, sbMeasure]
                dsimp only
                rw [hcard]
                simp only [List.length_cons]
                exact measure_lt (by omega) (by omega)
              omega
          · have hok' : respOk s = false := by
              cases hrs : respOk s
              · rfl
              · exact absurd hrs hok
            have hstep : sbCrawlLoop cfg o (n + 1) ⟨u :: rest, vis, prods, f⟩
                = sbCrawlLoop cfg o n ⟨rest, vis ++ [u], prods, f ++ [u]⟩ := by
              simp only [sbCrawlLoop, if_pos hguard, if_neg hu, ho, hok']
              simp
            rw [hstep]
            refine ih ⟨rest, vis ++ [u], prods, f ++ [u]⟩ hrest hnd' hvS' ?_
            have hlt : sbMeasure S ⟨rest, vis ++ [u], prods, f ++ [u]⟩
                < sbMeasure S ⟨u :: rest, vis, prods, f⟩ := by
              rw [sbMeasure, sbMeasure]
              dsimp only
              rw [hcard]
              simp only [List.length_cons]
              exact measure_lt (by omega) (by omega)
            omega

/-- C9: when the links the oracle can ever contribute stay inside a
finite URL universe `S` that contains the seed and is strictly smaller
than `maxPages`, the `crawl_with_scrapingbee` loop terminates by
draining: with fuel `card S * (card S + 1) + 2` it returns (instead of
running out of fuel) and the frontier is empty - every reachable
in-domain URL has been processed and the budget never cut the run
short. -/
theorem C9_drain_termination (cfg : SBConfig) (o : Str → FetchOut) (S : Finset Str)
    (hbase : cfg.base ∈ S)
    (hS : ∀ u l, l ∈ linksOf cfg o u → l ∈ S)
    (hmp : S.card < cfg.maxPages) :
    ∃ st', sbCrawlLoop cfg o (S.card * (S.card + 1) + 2) (initSB cfg.base) = some st'
      ∧ st'.toVisit = [] := by
  refine sb_term_aux cfg o S hS hmp _ (initSB cfg.base) ?_ ?_ ?_ ?_
  · intro x hx
    have hx' : x = cfg.base := by simpa [initSB] using hx
    rw [hx']
    exact hbase
  · exact List.nodup_nil
  · intro x hx
    exact absurd hx (List.not_mem_nil x)
  · rw [sbMeasure]
    have h0 : (S.filter (fun x => x ∈ (initSB cfg.base).visited)).card = 0 := by
      simp [initSB]
    rw [h0]
    simp only [initSB, Nat.sub_zero, List.length_singleton]
    omega

/-- C9 (witness): a seed-only universe drains within the computed
fuel. -/
theorem C9_drain_termination_witness :
    ((sbCrawlLoop ⟨['b'], [], [], 1, 2⟩ (fun _ => FetchOut.exc) (1 * (1 + 1) + 2)
        (initSB ['b'])).map (fun st => st.toVisit)) = some [] := by
  obtain ⟨st', h1, h2⟩ := C9_drain_termination ⟨['b'], [], [], 1, 2⟩
    (fun _ => FetchOut.exc) {['b']} (by decide)
    (by intro u l hl; simp [linksOf] at hl) (by decide)
  have hc : ({['b']} : Finset Str).card = 1 := by simp
  rw [hc] at h1
  rw [h1]
  simp [h2]

end AmptecScraper
